import Mathlib

/-!
Verification of the domain-matching core of `go-is-disposable-email`:
the reversed-string trie (`internal/trie`), the snapshot codec
(`Serialize`/`Deserialize`), domain extraction/normalization
(`domain.go`), and the `Checker` query/refresh logic (`checker.go`).

Go source is embedded shallowly: pure functions become Lean functions,
the mutex-protected trie state becomes a plain functional value (the
claims under verification are sequential), and the stateful refresh
path becomes an explicit state-passing function.
-/

namespace GoDisposable

/-! ## Trie (internal/trie/trie.go)

A trie `Node` holds `Children map[rune]*Node` and an `IsEnd` flag.
The Go map is embedded as an association list with unique keys
(uniqueness is an invariant, `WFNode`, proved preserved by insertion);
map iteration order in `collectDomains` is embedded as list order,
which is one admissible order of the Go map's unspecified order. -/

inductive Node where
  | mk (children : List (Char × Node)) (isEnd : Bool)

def Node.children : Node → List (Char × Node)
  | .mk cs _ => cs

def Node.isEnd : Node → Bool
  | .mk _ e => e

/-- `NewNode` from the source: empty children, `IsEnd = false`. -/
def NewNode : Node := .mk [] false

/-- Lookup `node.Children[char]` in the association-list embedding of the Go map. -/
def lookupChild : List (Char × Node) → Char → Option Node
  | [], _ => none
  | (k, n) :: rest, c => if k = c then some n else lookupChild rest c

/-- Update `node.Children[char] = child` in the association-list embedding. -/
def updateChild : List (Char × Node) → Char → Node → List (Char × Node)
  | [], c, v => [(c, v)]
  | (k, n) :: rest, c, v => if k = c then (c, v) :: rest else (k, n) :: updateChild rest c v

/-- The walk shared by `Contains` and the terminality test inside `Insert`:
follow the given (already reversed) character path from `n`; `true` iff the
whole path exists and its final node has `IsEnd` set. -/
def pathEnds : Node → List Char → Bool
  | n, [] => n.isEnd
  | n, c :: rest =>
    match lookupChild n.children c with
    | none => false
    | some child => pathEnds child rest

/-- The node rewrite performed by the loop in `Trie.Insert`: walk/extend the
(already reversed) path, creating `NewNode` children as needed, and mark the
final node with `IsEnd = true`. -/
def insertPath : Node → List Char → Node
  | n, [] => .mk n.children true
  | n, c :: rest =>
    let child :=
      match lookupChild n.children c with
      | some ch => ch
      | none => NewNode
    .mk (updateChild n.children c (insertPath child rest)) n.isEnd

/-- The loop of `Trie.ContainsHierarchical`: step one character at a time;
a missing child returns `false`; after each step, a node with `IsEnd` set
returns `true`; the `[]` case is the trailing `return node.IsEnd`. -/
def hierWalk : Node → List Char → Bool
  | n, [] => n.isEnd
  | n, c :: rest =>
    match lookupChild n.children c with
    | none => false
    | some child => if child.isEnd then true else hierWalk child rest

/-- `reverseString` from the source: reverse the rune sequence. -/
def reverseString (s : String) : String := ⟨s.data.reverse⟩

/-- `Trie` from the source: root node plus the stored `size` counter.
The `sync.RWMutex` field is not represented (sequential embedding). -/
structure Trie where
  root : Node
  size : Nat

/-- `trie.New()`: empty root, size 0. -/
def Trie.New : Trie := { root := NewNode, size := 0 }

/-- `Trie.Insert`: no-op on `""`; otherwise insert the reversed path and
increment `size` exactly when the final node was not already terminal
(`!node.IsEnd` in the source, which is `pathEnds` on the pre-insert root). -/
def Trie.Insert (t : Trie) (domain : String) : Trie :=
  if domain = "" then t
  else
    { root := insertPath t.root (reverseString domain).data
      size :=
        if pathEnds t.root (reverseString domain).data then t.size else t.size + 1 }

/-- `Trie.Contains`: `false` on `""`; otherwise walk the full reversed path
and return the final node's `IsEnd`. -/
def Trie.Contains (t : Trie) (domain : String) : Bool :=
  if domain = "" then false
  else pathEnds t.root (reverseString domain).data

/-- `Trie.ContainsHierarchical`: `false` on `""`; otherwise run the
short-circuiting reversed walk `hierWalk`. -/
def Trie.ContainsHierarchical (t : Trie) (domain : String) : Bool :=
  if domain = "" then false
  else hierWalk t.root (reverseString domain).data

mutual

/-- `collectDomains` from the source: if the node is terminal, emit the
reversed accumulated path; then recurse into every child. -/
def collectDomains : Node → List Char → List String
  | .mk cs e, pre =>
    (if e then [⟨pre.reverse⟩] else []) ++ collectChildren cs pre

/-- Iteration over `node.Children` inside `collectDomains`. -/
def collectChildren : List (Char × Node) → List Char → List String
  | [], _ => []
  | (c, child) :: rest, pre => collectDomains child (pre ++ [c]) ++ collectChildren rest pre

end

/-- `Trie.GetAll`: collect every stored domain from the root. -/
def Trie.GetAll (t : Trie) : List String := collectDomains t.root []

/-- A trie built by inserting a list of domains into a fresh empty trie,
as done by `Deserialize` and by repeated `Insert` calls. -/
def buildTrie (domains : List String) : Trie := domains.foldl Trie.Insert Trie.New

/-- Well-formedness of the association-list embedding of the Go children
map: keys are unique at every reachable node. -/
inductive WFNode : Node → Prop where
  | mk : ∀ (cs : List (Char × Node)) (e : Bool),
      (cs.map Prod.fst).Nodup → (∀ x ∈ cs, WFNode x.2) → WFNode (.mk cs e)

/-! ## Domain extraction and normalization (domain.go)

`strings.TrimSpace` / `strings.ToLower` are embedded character-wise;
the source's Unicode simple case mapping agrees with `Char.toLower`
on the ASCII range exercised here. -/

/-- `strings.TrimSpace`: drop leading and trailing whitespace runes. -/
def trimChars (l : List Char) : List Char :=
  ((l.dropWhile Char.isWhitespace).reverse.dropWhile Char.isWhitespace).reverse

/-- `NormalizeDomain`: `strings.ToLower(strings.TrimSpace(domain))`. -/
def NormalizeDomain (s : String) : String := ⟨(trimChars s.data).map Char.toLower⟩

/-- `ExtractDomain`: trim and lower-case; empty input gives `""`; if an `'@'`
is present, keep everything after the last `'@'` (`strings.LastIndex`),
returning `""` when nothing follows it; otherwise the input is already a
domain. -/
def ExtractDomain (s : String) : String :=
  let t := (trimChars s.data).map Char.toLower
  if t = [] then ""
  else if t.contains '@' then
    let domain := (t.reverse.takeWhile (fun c => c ≠ '@')).reverse
    if domain = [] then "" else ⟨domain⟩
  else ⟨t⟩

/-- The query path of `Checker.IsDisposableWithContext`, as a function of the
two indexes guarded by the checker's read lock: extract the domain, reject
empty, normalize, consult the allowlist hierarchically (precedence), then
the blocklist hierarchically. The `context.Context` argument is unused by
the source on this path. -/
def IsDisposable (blocklist allowlist : Trie) (emailOrDomain : String) : Bool :=
  let domain := ExtractDomain emailOrDomain
  if domain = "" then false
  else
    let d := NormalizeDomain domain
    if allowlist.ContainsHierarchical d then false
    else blocklist.ContainsHierarchical d

/-! ## Snapshot codec (internal/trie/serialize.go)

`DataFile` is the source's struct. The `encoding/gob` and `compress/gzip`
layers are Go standard library, not repository code; they are modelled
from the spec's codec contract ("a self-describing structured binary
encoding" inside "a deflate-family compression container" — the exact
byte framing is left to the implementation): bytes are a `List Nat`,
gzip is a two-byte magic header (`0x1f 0x8b`, the real gzip magic) whose
absence fails decompression, and gob is a length-prefixed encoding of the
`DataFile` fields. `time.Time` is embedded as a `Nat` instant. -/

structure DataFile where
  Version : String
  CreatedAt : Nat
  DomainCount : Nat
  Blocklist : List String
  Allowlist : List String

/-- Modelled from the spec: the two leading identification bytes of the
deflate-family container; input not starting with them is
"malformed/truncated/non-matching-format input". -/
def gzipMagic : List Nat := [31, 139]

/-- Modelled from the spec: compression of a payload (Go stdlib
`gzip.NewWriterLevel` + `Write` + `Close`, which never fails on an
in-memory buffer). Compression ratio is irrelevant to the claims, so the
payload is carried verbatim after the header. -/
def gzipCompress (payload : List Nat) : List Nat := 31 :: 139 :: payload

/-- Modelled from the spec: decompression (Go stdlib `gzip.NewReader` +
`io.ReadAll`), failing on input that does not carry the container header. -/
def gunzip : List Nat → Option (List Nat)
  | m1 :: m2 :: rest => if m1 = 31 ∧ m2 = 139 then some rest else none
  | _ => none

/-- Modelled from the spec: gob encoding of a string — length prefix, then
the scalar value of each rune. -/
def encString (s : String) : List Nat := s.data.length :: s.data.map Char.toNat

/-- Modelled from the spec: gob decoding of a string; fails when fewer
bytes remain than the length prefix announces. -/
def decString : List Nat → Option (String × List Nat)
  | [] => none
  | n :: rest =>
    if n ≤ rest.length then some (⟨(rest.take n).map Char.ofNat⟩, rest.drop n)
    else none

/-- Modelled from the spec: gob encoding of a string slice — count prefix,
then each string in order. -/
def encStringList (l : List String) : List Nat :=
  l.length :: (l.map encString).flatten

/-- Modelled from the spec: gob decoding of `count` consecutive strings. -/
def decStrings : Nat → List Nat → Option (List String × List Nat)
  | 0, rest => some ([], rest)
  | n + 1, rest =>
    match decString rest with
    | none => none
    | some (s, r) =>
      match decStrings n r with
      | none => none
      | some (ss, r') => some (s :: ss, r')

/-- Modelled from the spec: gob decoding of a string slice. -/
def decStringList : List Nat → Option (List String × List Nat)
  | [] => none
  | n :: rest => decStrings n rest

/-- Modelled from the spec: gob encoding of the `DataFile` struct, field by
field in declaration order. -/
def gobEncodeDataFile (df : DataFile) : List Nat :=
  encString df.Version ++ df.CreatedAt :: df.DomainCount :: (encStringList df.Blocklist ++ encStringList df.Allowlist)

/-- Modelled from the spec: gob decoding of a `DataFile`; fails on corrupt
or foreign payloads (wrong shape or trailing garbage). No semantic
validation of the decoded fields is performed. -/
def gobDecodeDataFile (b : List Nat) : Option DataFile :=
  match decString b with
  | none => none
  | some (ver, r1) =>
    match r1 with
    | created :: count :: r2 =>
      match decStringList r2 with
      | none => none
      | some (bl, r3) =>
        match decStringList r3 with
        | none => none
        | some (al, r4) => if r4 = [] then some ⟨ver, created, count, bl, al⟩ else none
    | _ => none

/-- Decode errors of `Deserialize`, mirroring its two `fmt.Errorf` sites. -/
inductive DecodeError where
  | gzipReaderFailed
  | gobDecodeFailed

/-- `Serialize`: build the `DataFile` (version `"1.0"`, current time,
`DomainCount = blocklist.Size()`, the two enumerations), gob-encode it and
gzip-compress the result. The current time is passed explicitly. -/
def Serialize (blocklist allowlist : Trie) (now : Nat) : List Nat :=
  gzipCompress (gobEncodeDataFile
    { Version := "1.0"
      CreatedAt := now
      DomainCount := blocklist.size
      Blocklist := blocklist.GetAll
      Allowlist := allowlist.GetAll })

/-- `Deserialize`: decompress, gob-decode, then rebuild both tries by
inserting every listed string into fresh empty tries. -/
def Deserialize (data : List Nat) : Except DecodeError (Trie × Trie × DataFile) :=
  match gunzip data with
  | none => .error .gzipReaderFailed
  | some decompressed =>
    match gobDecodeDataFile decompressed with
    | none => .error .gobDecodeFailed
    | some dataFile =>
      .ok (buildTrie dataFile.Blocklist, buildTrie dataFile.Allowlist, dataFile)

/-! ## Checker refresh path (checker.go)

The fields of `Checker` touched by `RefreshWithContext` are embedded as an
explicit state record; the network download (`downloadData`) is an external
effect and enters as an `Except` parameter; the best-effort cache write
(`os.WriteFile`, logged-only on failure) has no effect on this state. Each
early `return err` in the source precedes every field assignment, so the
embedding returns the input state unchanged on those paths. -/

structure DownloadError where
  url : String
  statusCode : Nat

/-- Errors surfaced by `downloadAndLoad`: the `DownloadError` from
`downloadData`, or the `DeserializationError{Source: "download"}` wrapper. -/
inductive LoadError where
  | download (e : DownloadError)
  | deserialization (source : String) (e : DecodeError)

structure CheckerState where
  blocklist : Trie
  allowlist : Trie
  initialized : Bool
  lastUpdated : Nat
  version : String

/-- `Checker.downloadAndLoad`: on download or decode failure, return the
error with the state untouched; on success, install both tries and the
snapshot metadata under the write lock. -/
def downloadAndLoad (c : CheckerState) (downloaded : Except DownloadError (List Nat)) :
    CheckerState × Option LoadError :=
  match downloaded with
  | .error e => (c, some (.download e))
  | .ok fileData =>
    match Deserialize fileData with
    | .error e => (c, some (.deserialization "download" e))
    | .ok (bl, al, df) =>
      ({ c with blocklist := bl, allowlist := al, initialized := true,
                lastUpdated := df.CreatedAt, version := df.Version }, none)

/-- `Checker.applyCustomDomains`: insert the configured custom domains,
normalized, into the two live tries. -/
def applyCustomDomains (c : CheckerState) (customBlocklist customAllowlist : List String) :
    CheckerState :=
  { c with
    blocklist := customBlocklist.foldl (fun t d => t.Insert (NormalizeDomain d)) c.blocklist
    allowlist := customAllowlist.foldl (fun t d => t.Insert (NormalizeDomain d)) c.allowlist }

/-- `Checker.RefreshWithContext`: run `downloadAndLoad`; propagate its error
unchanged, otherwise re-apply the configured custom domains. -/
def RefreshWithContext (c : CheckerState) (customBlocklist customAllowlist : List String)
    (downloaded : Except DownloadError (List Nat)) : CheckerState × Option LoadError :=
  match downloadAndLoad c downloaded with
  | (c', some e) => (c', some e)
  | (c', none) => (applyCustomDomains c' customBlocklist customAllowlist, none)

/-! ## Association-list (children map) lemmas -/

theorem lookupChild_mem {cs : List (Char × Node)} {c : Char} {n : Node}
    (h : lookupChild cs c = some n) : (c, n) ∈ cs := by
  induction cs with
  | nil => simp [lookupChild] at h
  | cons hd tl ih =>
    obtain ⟨k, v⟩ := hd
    by_cases hk : k = c
    · subst hk
      simp [lookupChild] at h
      subst h
      exact List.mem_cons_self _ _
    · simp [lookupChild, hk] at h
      exact List.mem_cons_of_mem _ (ih h)

@[simp] theorem Node.children_mk (cs : List (Char × Node)) (e : Bool) :
    (Node.mk cs e).children = cs := rfl

@[simp] theorem Node.isEnd_mk (cs : List (Char × Node)) (e : Bool) :
    (Node.mk cs e).isEnd = e := rfl

theorem lookupChild_of_mem_nodup {cs : List (Char × Node)} {c : Char} {n : Node}
    (hnd : (cs.map Prod.fst).Nodup) (h : (c, n) ∈ cs) : lookupChild cs c = some n := by
  induction cs with
  | nil => simp at h
  | cons hd tl ih =>
    obtain ⟨k, v⟩ := hd
    simp only [List.map_cons, List.nodup_cons] at hnd
    rcases List.mem_cons.mp h with h1 | h1
    · rw [Prod.mk.injEq] at h1
      simp [lookupChild, h1.1, h1.2]
    · have hk : k ≠ c := by
        intro hkc
        subst hkc
        exact hnd.1 (List.mem_map.mpr ⟨(k, n), h1, rfl⟩)
      simp only [lookupChild, hk, if_false]
      exact ih hnd.2 h1

theorem lookupChild_update_self (cs : List (Char × Node)) (c : Char) (v : Node) :
    lookupChild (updateChild cs c v) c = some v := by
  induction cs with
  | nil => simp [updateChild, lookupChild]
  | cons hd tl ih =>
    obtain ⟨k, n⟩ := hd
    by_cases hk : k = c
    · simp [updateChild, hk, lookupChild]
    · simp [updateChild, hk, lookupChild, ih]

theorem lookupChild_update_ne (cs : List (Char × Node)) {c c' : Char} (v : Node)
    (h : c' ≠ c) : lookupChild (updateChild cs c v) c' = lookupChild cs c' := by
  have h' : c ≠ c' := Ne.symm h
  induction cs with
  | nil => simp [updateChild, lookupChild, h']
  | cons hd tl ih =>
    obtain ⟨k, n⟩ := hd
    by_cases hk : k = c
    · subst hk
      simp [updateChild, lookupChild, h']
    · simp only [updateChild, hk, if_false, lookupChild]
      by_cases hk' : k = c'
      · simp [hk']
      · simp [hk', ih]

theorem mem_updateChild {cs : List (Char × Node)} {c : Char} {v : Node} {x : Char × Node}
    (h : x ∈ updateChild cs c v) : x = (c, v) ∨ x ∈ cs := by
  induction cs with
  | nil => simp [updateChild] at h; exact .inl h
  | cons hd tl ih =>
    obtain ⟨k, n⟩ := hd
    by_cases hk : k = c
    · simp only [updateChild, hk, if_true, List.mem_cons] at h
      rcases h with h | h
      · exact .inl h
      · exact .inr (List.mem_cons_of_mem _ h)
    · simp only [updateChild, hk, if_false, List.mem_cons] at h
      rcases h with h | h
      · exact .inr (List.mem_cons.mpr (.inl h))
      · rcases ih h with h' | h'
        · exact .inl h'
        · exact .inr (List.mem_cons_of_mem _ h')

theorem keys_updateChild (cs : List (Char × Node)) (c : Char) (v : Node) :
    (updateChild cs c v).map Prod.fst =
      if c ∈ cs.map Prod.fst then cs.map Prod.fst else cs.map Prod.fst ++ [c] := by
  induction cs with
  | nil => simp [updateChild]
  | cons hd tl ih =>
    obtain ⟨k, n⟩ := hd
    by_cases hk : k = c
    · simp [updateChild, hk]
    · have hk' : ¬c = k := fun hh => hk hh.symm
      simp only [updateChild, hk, if_false, List.map_cons, List.mem_cons]
      rw [ih]
      by_cases hc : c ∈ tl.map Prod.fst
      · simp [hc, hk']
      · simp [hc, hk']

theorem nodup_keys_updateChild {cs : List (Char × Node)} (c : Char) (v : Node)
    (hnd : (cs.map Prod.fst).Nodup) : ((updateChild cs c v).map Prod.fst).Nodup := by
  rw [keys_updateChild]
  by_cases hc : c ∈ cs.map Prod.fst
  · simpa [hc]
  · simp [hc, List.nodup_append, hnd]

theorem updateChild_updateChild (cs : List (Char × Node)) (c : Char) (v w : Node) :
    updateChild (updateChild cs c v) c w = updateChild cs c w := by
  induction cs with
  | nil => simp [updateChild]
  | cons hd tl ih =>
    obtain ⟨k, n⟩ := hd
    by_cases hk : k = c
    · simp [updateChild, hk]
    · simp [updateChild, hk, ih]

/-! ## Path walk and insertion lemmas -/

theorem pathEnds_NewNode (p : List Char) : pathEnds NewNode p = false := by
  cases p <;> simp [pathEnds, NewNode, lookupChild]

/-- Insertion correctness: after inserting path `q`, exactly the old
terminal paths plus `q` itself are terminal. -/
theorem pathEnds_insertPath (q : List Char) :
    ∀ (n : Node) (p : List Char),
      pathEnds (insertPath n q) p = true ↔ p = q ∨ pathEnds n p = true := by
  induction q with
  | nil =>
    rintro ⟨cs, e⟩ p
    cases p with
    | nil => simp [insertPath, pathEnds]
    | cons c ps =>
      simp only [insertPath, pathEnds, Node.children_mk]
      constructor
      · intro h; exact .inr h
      · rintro (h | h)
        · exact absurd h (by simp)
        · exact h
  | cons c qs ih =>
    rintro ⟨cs, e⟩ p
    cases p with
    | nil =>
      simp only [insertPath, pathEnds, Node.isEnd_mk]
      constructor
      · intro h; exact .inr h
      · rintro (h | h)
        · exact absurd h (by simp)
        · exact h
    | cons c' ps =>
      simp only [insertPath, pathEnds, Node.children_mk]
      by_cases hc : c' = c
      · subst hc
        rw [lookupChild_update_self]
        cases hl : lookupChild cs c' with
        | some child =>
          simp only [hl, ih child ps]
          constructor
          · rintro (h | h)
            · exact .inl (by rw [h])
            · exact .inr h
          · rintro (h | h)
            · exact .inl (List.cons.injEq .. ▸ h).2
            · exact .inr h
        | none =>
          simp only [hl, ih NewNode ps, pathEnds_NewNode]
          constructor
          · rintro (h | h)
            · exact .inl (by rw [h])
            · exact absurd h (by simp)
          · rintro (h | h)
            · exact .inl (List.cons.injEq .. ▸ h).2
            · exact absurd h (by simp)
      · rw [lookupChild_update_ne _ _ hc]
        have hne : ¬(c' :: ps = c :: qs) := by
          intro h
          exact hc (List.cons.injEq .. ▸ h).1
        cases lookupChild cs c' with
        | none => simp [hne]
        | some child => simp [hne]

theorem insertPath_idem (q : List Char) :
    ∀ n : Node, insertPath (insertPath n q) q = insertPath n q := by
  induction q with
  | nil => rintro ⟨cs, e⟩; simp [insertPath]
  | cons c qs ih =>
    rintro ⟨cs, e⟩
    simp only [insertPath, Node.children_mk, Node.isEnd_mk, lookupChild_update_self]
    rw [ih, updateChild_updateChild]

theorem wfNode_NewNode : WFNode NewNode :=
  WFNode.mk [] false (by simp) (by simp)

theorem wfNode_insertPath (q : List Char) :
    ∀ {n : Node}, WFNode n → WFNode (insertPath n q) := by
  induction q with
  | nil =>
    rintro n ⟨cs, e, hnd, hch⟩
    exact WFNode.mk cs true hnd hch
  | cons c qs ih =>
    rintro n ⟨cs, e, hnd, hch⟩
    simp only [insertPath, Node.children_mk, Node.isEnd_mk]
    refine WFNode.mk _ e (nodup_keys_updateChild c _ hnd) ?_
    intro x hx
    rcases mem_updateChild hx with h | h
    · subst h
      cases hl : lookupChild cs c with
      | some child =>
        simp only [hl]
        exact ih (hch _ (lookupChild_mem hl))
      | none =>
        simp only [hl]
        exact ih wfNode_NewNode
    · exact hch x h

/-- The short-circuiting walk returns `true` iff some traversed node is
terminal: either the start with an exhausted path, or a terminal node at the
end of a non-empty path prefix of the query. -/
theorem hierWalk_iff (l : List Char) :
    ∀ n : Node, hierWalk n l = true ↔
      (l = [] ∧ n.isEnd = true) ∨ ∃ p, p ≠ [] ∧ p <+: l ∧ pathEnds n p = true := by
  induction l with
  | nil =>
    intro n
    simp only [hierWalk]
    constructor
    · intro h
      refine .inl ⟨?_, h⟩
      simp
    · rintro (⟨-, h⟩ | ⟨p, hp, hpre, hpe⟩)
      · exact h
      · exact absurd (List.prefix_nil.mp hpre) hp
  | cons c rest ih =>
    intro n
    simp only [hierWalk]
    cases hl : lookupChild n.children c with
    | none =>
      simp only [Bool.false_eq_true, false_iff]
      rintro (⟨h, -⟩ | ⟨p, hp, hpre, hpe⟩)
      · exact List.cons_ne_nil _ _ h
      · obtain ⟨c', p', rfl⟩ := List.exists_cons_of_ne_nil hp
        obtain ⟨hc', -⟩ := List.cons_prefix_cons.mp hpre
        subst hc'
        simp [pathEnds, hl] at hpe
    | some child =>
      by_cases he : child.isEnd = true
      · simp only [he, if_true, true_iff]
        refine .inr ⟨[c], ?_, ?_, ?_⟩
        · simp
        · exact ⟨rest, rfl⟩
        · simp [pathEnds, hl, he]
      · simp only [Bool.not_eq_true] at he
        simp only [he, Bool.false_eq_true, if_false, ih child]
        constructor
        · rintro (⟨rfl, hce⟩ | ⟨p, hp, hpre, hpe⟩)
          · exact hce.elim
          · refine .inr ⟨c :: p, ?_, List.cons_prefix_cons.mpr ⟨rfl, hpre⟩, ?_⟩
            · simp
            · simp [pathEnds, hl, hpe]
        · rintro (⟨h, -⟩ | ⟨p, hp, hpre, hpe⟩)
          · exact absurd h (List.cons_ne_nil _ _)
          · obtain ⟨c', p', rfl⟩ := List.exists_cons_of_ne_nil hp
            obtain ⟨hc', hpre'⟩ := List.cons_prefix_cons.mp hpre
            subst hc'
            simp only [pathEnds, hl] at hpe
            cases p' with
            | nil =>
              simp only [pathEnds, he] at hpe
              exact absurd hpe (by simp)
            | cons d ds =>
              exact .inr ⟨d :: ds, by simp, hpre', hpe⟩

/-! ## Built-trie characterizations -/

theorem string_eq_empty_iff {s : String} : s = "" ↔ s.data = [] := by
  constructor
  · intro h; rw [h]
  · intro h; cases s; simp_all

theorem string_data_inj {s t : String} (h : s.data = t.data) : s = t := by
  cases s; cases t; simp_all

/-- Terminal paths of a trie built by repeated insertion are exactly the
reversed character sequences of the non-empty inserted domains. -/
theorem pathEnds_foldl_insert (L : List String) :
    ∀ (t : Trie) (p : List Char),
      pathEnds (L.foldl Trie.Insert t).root p = true ↔
        (∃ d ∈ L, d ≠ "" ∧ p = d.data.reverse) ∨ pathEnds t.root p = true := by
  induction L with
  | nil => simp
  | cons d ds ih =>
    intro t p
    rw [List.foldl_cons, ih]
    constructor
    · rintro (⟨d', hd', hne, rfl⟩ | h)
      · exact .inl ⟨d', List.mem_cons_of_mem _ hd', hne, rfl⟩
      · by_cases hd : d = ""
        · subst hd
          simp only [Trie.Insert, if_pos rfl] at h
          exact .inr h
        · simp only [Trie.Insert, if_neg hd] at h
          rcases (pathEnds_insertPath _ _ _).mp h with h' | h'
          · exact .inl ⟨d, List.mem_cons_self _ _, hd, by
              simpa [reverseString] using h'⟩
          · exact .inr h'
    · rintro (⟨d', hd', hne, rfl⟩ | h)
      · rcases List.mem_cons.mp hd' with rfl | hmem
        · refine .inr ?_
          simp only [Trie.Insert, if_neg hne]
          exact (pathEnds_insertPath _ _ _).mpr (.inl (by simp [reverseString]))
        · exact .inl ⟨d', hmem, hne, rfl⟩
      · refine .inr ?_
        by_cases hd : d = ""
        · simpa [Trie.Insert, hd] using h
        · simp only [Trie.Insert, if_neg hd]
          exact (pathEnds_insertPath _ _ _).mpr (.inr h)

theorem pathEnds_buildTrie (L : List String) (p : List Char) :
    pathEnds (buildTrie L).root p = true ↔ ∃ d ∈ L, d ≠ "" ∧ p = d.data.reverse := by
  rw [buildTrie, pathEnds_foldl_insert]
  simp [Trie.New, pathEnds_NewNode]

theorem wfNode_foldl_insert (L : List String) :
    ∀ t : Trie, WFNode t.root → WFNode ((L.foldl Trie.Insert t).root) := by
  induction L with
  | nil => intro t h; exact h
  | cons d ds ih =>
    intro t h
    rw [List.foldl_cons]
    refine ih _ ?_
    by_cases hd : d = ""
    · simpa [Trie.Insert, hd]
    · simpa [Trie.Insert, hd] using wfNode_insertPath _ h

theorem wfNode_buildTrie (L : List String) : WFNode (buildTrie L).root :=
  wfNode_foldl_insert L Trie.New (by simpa [Trie.New] using wfNode_NewNode)

/-! ## Enumeration (`collectDomains` / `GetAll`) lemmas -/

theorem mem_collectChildren_of_mem {cs : List (Char × Node)} {c : Char} {child : Node}
    (hmem : (c, child) ∈ cs) {pre : List Char} {s : String}
    (hs : s ∈ collectDomains child (pre ++ [c])) : s ∈ collectChildren cs pre := by
  induction cs with
  | nil => simp at hmem
  | cons hd tl ih =>
    rcases List.mem_cons.mp hmem with h | h
    · subst h
      simp only [collectChildren, List.mem_append]
      exact .inl hs
    · obtain ⟨k, m⟩ := hd
      simp only [collectChildren, List.mem_append]
      exact .inr (ih h)

/-- Completeness of the enumeration: every terminal path is emitted. -/
theorem collectDomains_of_pathEnds (p : List Char) :
    ∀ (n : Node) (pre : List Char), pathEnds n p = true →
      (⟨(pre ++ p).reverse⟩ : String) ∈ collectDomains n pre := by
  induction p with
  | nil =>
    rintro ⟨cs, e⟩ pre hp
    simp only [pathEnds, Node.isEnd_mk] at hp
    simp [collectDomains, hp]
  | cons c ps ih =>
    rintro ⟨cs, e⟩ pre hp
    simp only [pathEnds, Node.children_mk] at hp
    cases hl : lookupChild cs c with
    | none => rw [hl] at hp; simp at hp
    | some child =>
      rw [hl] at hp
      have := ih child (pre ++ [c]) hp
      rw [List.append_assoc] at this
      simp only [List.singleton_append] at this
      simp only [collectDomains, List.mem_append]
      exact .inr (mem_collectChildren_of_mem (lookupChild_mem hl) this)

/-- Soundness of the enumeration on a well-formed node: every emitted
string is the reverse of `pre` extended by some terminal path. -/
theorem pathEnds_of_mem_collectDomains {n : Node} (hw : WFNode n) :
    ∀ (pre : List Char) (s : String), s ∈ collectDomains n pre →
      ∃ p, pathEnds n p = true ∧ s = ⟨(pre ++ p).reverse⟩ := by
  induction hw with
  | mk cs e hnd hch ih =>
    intro pre s hs
    simp only [collectDomains, List.mem_append] at hs
    rcases hs with hs | hs
    · refine ⟨[], ?_, ?_⟩
      · cases e with
        | true => simp [pathEnds]
        | false => simp at hs
      · cases e with
        | true => simpa using (List.mem_singleton.mp (by simpa using hs)).symm ▸ rfl
        | false => simp at hs
    · suffices h : ∀ cs' : List (Char × Node), (∀ x ∈ cs', x ∈ cs) →
          s ∈ collectChildren cs' pre →
          ∃ c child p', (c, child) ∈ cs ∧ pathEnds child p' = true ∧
            s = ⟨(pre ++ (c :: p')).reverse⟩ by
        obtain ⟨c, child, p', hmem, hpe, hse⟩ := h cs (fun x hx => hx) hs
        refine ⟨c :: p', ?_, hse⟩
        simp only [pathEnds, Node.children_mk]
        rw [lookupChild_of_mem_nodup hnd hmem]
        exact hpe
      intro cs' hsub hmem
      induction cs' with
      | nil => simp [collectChildren] at hmem
      | cons hd tl ihc =>
        obtain ⟨c, child⟩ := hd
        simp only [collectChildren, List.mem_append] at hmem
        rcases hmem with hmem | hmem
        · have hin : (c, child) ∈ cs := hsub _ (List.mem_cons_self _ _)
          obtain ⟨p', hpe, hse⟩ := ih (c, child) hin (pre ++ [c]) s hmem
          refine ⟨c, child, p', hin, hpe, ?_⟩
          rw [hse, List.append_assoc]
          simp
        · exact ihc (fun x hx => hsub _ (List.mem_cons_of_mem _ hx)) hmem

/-- `GetAll` of a trie built from a list of domains contains exactly the
non-empty strings of that list. -/
theorem mem_GetAll_buildTrie (L : List String) (s : String) :
    s ∈ (buildTrie L).GetAll ↔ s ∈ L ∧ s ≠ "" := by
  constructor
  · intro hs
    obtain ⟨p, hpe, hse⟩ :=
      pathEnds_of_mem_collectDomains (wfNode_buildTrie L) [] s hs
    obtain ⟨d, hd, hne, rfl⟩ := (pathEnds_buildTrie L p).mp hpe
    have : s = d := by
      rw [hse]
      exact string_data_inj (by simp)
    exact this ▸ ⟨hd, hne⟩
  · rintro ⟨hs, hne⟩
    have hpe : pathEnds (buildTrie L).root s.data.reverse = true :=
      (pathEnds_buildTrie L _).mpr ⟨s, hs, hne, rfl⟩
    have := collectDomains_of_pathEnds s.data.reverse (buildTrie L).root [] hpe
    simpa [Trie.GetAll] using this

/-! ## Size characterization -/

theorem size_buildTrie (L : List String) :
    (buildTrie L).size = ((L.filter (fun d => d ≠ "")).toFinset).card := by
  induction L using List.reverseRecOn with
  | nil => simp [buildTrie, Trie.New]
  | append_singleton M d ih =>
    rw [buildTrie, List.foldl_append, List.foldl_cons, List.foldl_nil]
    by_cases hd : d = ""
    · subst hd
      simpa [Trie.Insert, buildTrie] using ih
    · show (Trie.Insert (buildTrie M) d).size = _
      rw [Trie.Insert, if_neg hd]
      simp only []
      have hchar : pathEnds (buildTrie M).root (reverseString d).data = true ↔ d ∈ M := by
        rw [show (reverseString d).data = d.data.reverse from rfl, pathEnds_buildTrie]
        constructor
        · rintro ⟨d', hd', hne, hrev⟩
          have : d' = d := string_data_inj (by
            have := congrArg List.reverse hrev
            simpa using this.symm)
          exact this ▸ hd'
        · intro h; exact ⟨d, h, hd, rfl⟩
      have hfilter : (M ++ [d]).filter (fun x => x ≠ "") =
          M.filter (fun x => x ≠ "") ++ [d] := by
        rw [List.filter_append]
        simp [hd]
      rw [hfilter, List.toFinset_append]
      by_cases hmem : d ∈ M
      · rw [if_pos (hchar.mpr hmem), ih]
        have hdin : d ∈ (M.filter (fun x => x ≠ "")).toFinset := by
          simp [List.mem_filter, hmem, hd]
        congr 1
        have hsub : ({d} : Finset String) ⊆ (M.filter (fun x => x ≠ "")).toFinset := by
          simpa using hdin
        rw [show ([d] : List String).toFinset = {d} by simp]
        exact (Finset.union_eq_left.mpr hsub).symm
      · rw [if_neg (fun h => hmem (hchar.mp h)), ih]
        have hnotin : d ∉ (M.filter (fun x => x ≠ "")).toFinset := by
          simp only [List.mem_toFinset, List.mem_filter]
          rintro ⟨h, -⟩
          exact hmem h
        rw [show ([d] : List String).toFinset = {d} by simp]
        rw [Finset.union_comm, ← Finset.insert_eq,
          Finset.card_insert_of_not_mem hnotin]

/-- The hierarchical query of a built trie succeeds exactly on non-empty
queries having some inserted non-empty domain as a character-level suffix. -/
theorem containsHierarchical_buildTrie (L : List String) (q : String) :
    (buildTrie L).ContainsHierarchical q = true ↔
      q ≠ "" ∧ ∃ d ∈ L, d ≠ "" ∧ d.data <:+ q.data := by
  rw [Trie.ContainsHierarchical]
  by_cases hq : q = ""
  · simp [hq]
  · rw [if_neg hq]
    rw [show (reverseString q).data = q.data.reverse from rfl]
    rw [hierWalk_iff]
    constructor
    · rintro (⟨hnil, hend⟩ | ⟨p, hp, hpre, hpe⟩)
      · obtain ⟨d, hd, hne, hrev⟩ := (pathEnds_buildTrie L []).mp (by
          simpa [pathEnds] using hend)
        have : d.data = [] := by
          have := congrArg List.reverse hrev
          simpa using this.symm
        exact absurd (string_eq_empty_iff.mpr this) hne
      · obtain ⟨d, hd, hne, rfl⟩ := (pathEnds_buildTrie L p).mp hpe
        refine ⟨hq, d, hd, hne, ?_⟩
        rw [← List.reverse_prefix]
        simpa using hpre
    · rintro ⟨-, d, hd, hne, hsuf⟩
      refine .inr ⟨d.data.reverse, ?_, ?_, (pathEnds_buildTrie L _).mpr ⟨d, hd, hne, rfl⟩⟩
      · simpa using fun h => hne (string_eq_empty_iff.mpr h)
      · exact List.reverse_prefix.mpr hsuf

/-! ## Codec round-trip lemmas -/

theorem charOfNat_toNat (c : Char) : Char.ofNat c.toNat = c := Char.ofNat_toNat c

theorem decString_encString (s : String) (rest : List Nat) :
    decString (encString s ++ rest) = some (s, rest) := by
  have h : encString s ++ rest = s.data.length :: (s.data.map Char.toNat ++ rest) := by
    simp [encString]
  rw [h, decString, if_pos (by simp)]
  have htake : (s.data.map Char.toNat ++ rest).take s.data.length = s.data.map Char.toNat :=
    List.take_left' (by simp)
  have hdrop : (s.data.map Char.toNat ++ rest).drop s.data.length = rest :=
    List.drop_left' (by simp)
  rw [htake, hdrop, List.map_map]
  have hid : (Char.ofNat ∘ Char.toNat) = id := funext fun c => charOfNat_toNat c
  rw [hid, List.map_id]

theorem decStrings_encStrings (l : List String) (rest : List Nat) :
    decStrings l.length ((l.map encString).flatten ++ rest) = some (l, rest) := by
  induction l with
  | nil => simp [decStrings]
  | cons s ss ih =>
    simp only [List.length_cons, List.map_cons, List.flatten_cons, List.append_assoc]
    rw [decStrings, decString_encString]
    simp only []
    rw [ih]

theorem decStringList_encStringList (l : List String) (rest : List Nat) :
    decStringList (encStringList l ++ rest) = some (l, rest) := by
  rw [encStringList, List.cons_append, decStringList, decStrings_encStrings]

theorem gobDecode_gobEncode (df : DataFile) :
    gobDecodeDataFile (gobEncodeDataFile df) = some df := by
  rw [gobEncodeDataFile, gobDecodeDataFile, decString_encString]
  simp only []
  rw [show encStringList df.Blocklist ++ encStringList df.Allowlist =
      encStringList df.Blocklist ++ (encStringList df.Allowlist ++ []) by simp]
  rw [decStringList_encStringList]
  simp only []
  rw [decStringList_encStringList]
  simp

theorem gunzip_gzipCompress (payload : List Nat) :
    gunzip (gzipCompress payload) = some payload := by
  simp [gunzip, gzipCompress]

theorem gunzip_eq_none_of_not_magic {b : List Nat} (h : ¬ gzipMagic <+: b) :
    gunzip b = none := by
  match b with
  | [] => rfl
  | [x] => rfl
  | x :: y :: rest =>
    rw [gunzip]
    rw [if_neg]
    rintro ⟨rfl, rfl⟩
    exact h ⟨rest, rfl⟩

/-- `Deserialize` inverts the modelled encoding of any `DataFile`, with the
metadata passed through unchanged and both tries rebuilt by insertion. -/
theorem deserialize_encode (df : DataFile) :
    Deserialize (gzipCompress (gobEncodeDataFile df)) =
      .ok (buildTrie df.Blocklist, buildTrie df.Allowlist, df) := by
  rw [Deserialize, gunzip_gzipCompress]
  simp only [gobDecode_gobEncode]

/-! ## Insert idempotence -/

theorem trie_insert_insert (t : Trie) (d : String) :
    (t.Insert d).Insert d = t.Insert d := by
  by_cases hd : d = ""
  · simp [Trie.Insert, hd]
  · have hroot : (t.Insert d).root = insertPath t.root (reverseString d).data := by
      rw [Trie.Insert, if_neg hd]
    conv_lhs => rw [Trie.Insert, if_neg hd]
    rw [hroot, insertPath_idem,
      if_pos ((pathEnds_insertPath _ _ _).mpr (.inl rfl))]
    conv_rhs => rw [Trie.Insert, if_neg hd]
    rw [Trie.Insert, if_neg hd]

theorem iterate_insert (d : String) (k : Nat) :
    ∀ t : Trie, (fun s => Trie.Insert s d)^[k] (t.Insert d) = t.Insert d := by
  induction k with
  | zero => intro t; rfl
  | succ n ih =>
    intro t
    rw [Function.iterate_succ_apply]
    rw [show (t.Insert d).Insert d = t.Insert d from trie_insert_insert t d]
    exact ih t

/-! ## Claim theorems -/

/-- Claim C1 (code evaluation at the failing input): the spec requires
hierarchical containment to match only at dotted-label boundaries, so that
with only `"tempmail.com"` stored, `is_disposable("nottempmail.com")` is
false; the code's `ContainsHierarchical` performs a character-level reversed
walk with no label-boundary check, and `"tempmail.com"` is a character
suffix of `"nottempmail.com"`, so both the trie query and `IsDisposable`
return `true` there. -/
theorem claim1_code_matches_nottempmail :
    (buildTrie ["tempmail.com"]).ContainsHierarchical "nottempmail.com" = true ∧
    IsDisposable (buildTrie ["tempmail.com"]) Trie.New "nottempmail.com" = true := by
  constructor
  · decide
  · decide

/-- Claim C2: `Trie.ContainsHierarchical` on a trie built by inserting the
domains `L` returns `false` on the empty query, and otherwise returns `true`
iff the reversed walk meets a terminal node — equivalently, iff some
inserted non-empty domain is a character-level suffix of the query; it
returns `false` when the reversed path cannot be completed without a
terminal node having been seen. -/
theorem claim2_hierarchical_iff_suffix (L : List String) (q : String) :
    (buildTrie L).ContainsHierarchical q = true ↔
      q ≠ "" ∧ ∃ d ∈ L, d ≠ "" ∧ d.data <:+ q.data :=
  containsHierarchical_buildTrie L q

/-- Claim C3: allowlist precedence — whenever some non-empty domain `D` of
the allowlist is a character suffix of the extracted, normalized query
domain (so the allowlist's hierarchical check matches: `D` itself, or any
subdomain of `D`), `IsDisposable` returns `false`, regardless of the
blocklist's contents — in particular when the same `D` is also in the
blocklist. -/
theorem claim3_allowlist_precedence (bs as' : List String) (input D : String)
    (hD : D ∈ as') (hne : D ≠ "")
    (hsuf : D.data <:+ (NormalizeDomain (ExtractDomain input)).data) :
    IsDisposable (buildTrie bs) (buildTrie as') input = false := by
  rw [IsDisposable]
  by_cases hdom : ExtractDomain input = ""
  · simp [hdom]
  · rw [if_neg hdom]
    simp only []
    have hqne : NormalizeDomain (ExtractDomain input) ≠ "" := by
      intro h
      rw [h] at hsuf
      have := List.eq_nil_of_suffix_nil hsuf
      exact hne (string_eq_empty_iff.mpr this)
    have hCH : (buildTrie as').ContainsHierarchical
        (NormalizeDomain (ExtractDomain input)) = true :=
      (containsHierarchical_buildTrie _ _).mpr ⟨hqne, D, hD, hne, hsuf⟩
    rw [hCH]
    simp

/-- Witness for C3: `"tempmail.com"` in both lists, queried via an address
at a subdomain. -/
theorem claim3_witness :
    IsDisposable (buildTrie ["tempmail.com"]) (buildTrie ["tempmail.com"])
      "user@mail.tempmail.com" = false :=
  claim3_allowlist_precedence ["tempmail.com"] ["tempmail.com"]
    "user@mail.tempmail.com" "tempmail.com" (by decide) (by decide) (by decide)

/-- Claim C4: encode/decode round-trip — serializing the pair of tries built
from duplicate-free lists of non-empty domain strings and deserializing the
result succeeds, and yields tries whose enumerations equal the original sets
and whose sizes equal the original cardinalities. -/
theorem claim4_roundtrip (S T : List String) (now : Nat)
    (hSnd : S.Nodup) (hTnd : T.Nodup) (hS : "" ∉ S) (hT : "" ∉ T) :
    ∃ bl al df,
      Deserialize (Serialize (buildTrie S) (buildTrie T) now) = .ok (bl, al, df) ∧
      (∀ x, x ∈ bl.GetAll ↔ x ∈ S) ∧ (∀ x, x ∈ al.GetAll ↔ x ∈ T) ∧
      bl.size = S.length ∧ al.size = T.length := by
  refine ⟨buildTrie ((buildTrie S).GetAll), buildTrie ((buildTrie T).GetAll), _,
    deserialize_encode _, ?_, ?_, ?_, ?_⟩
  · intro x
    rw [mem_GetAll_buildTrie, mem_GetAll_buildTrie]
    constructor
    · rintro ⟨⟨h, hne⟩, -⟩; exact h
    · intro h
      have hne : x ≠ "" := by rintro rfl; exact hS h
      exact ⟨⟨h, hne⟩, hne⟩
  · intro x
    rw [mem_GetAll_buildTrie, mem_GetAll_buildTrie]
    constructor
    · rintro ⟨⟨h, hne⟩, -⟩; exact h
    · intro h
      have hne : x ≠ "" := by rintro rfl; exact hT h
      exact ⟨⟨h, hne⟩, hne⟩
  · rw [size_buildTrie]
    have hfin : (((buildTrie S).GetAll.filter (fun d => d ≠ "")).toFinset) =
        ((S.filter (fun d => d ≠ "")).toFinset) := by
      apply Finset.ext
      intro x
      simp only [List.mem_toFinset, List.mem_filter, mem_GetAll_buildTrie,
        decide_eq_true_eq]
      constructor
      · rintro ⟨⟨h, hne⟩, -⟩; exact ⟨h, hne⟩
      · rintro ⟨h, hne⟩; exact ⟨⟨h, hne⟩, hne⟩
    rw [hfin]
    have : S.filter (fun d => d ≠ "") = S :=
      List.filter_eq_self.mpr fun a ha => by
        simp only [ne_eq, decide_eq_true_eq]
        rintro rfl
        exact hS ha
    rw [this, List.toFinset_card_of_nodup hSnd]
  · rw [size_buildTrie]
    have hfin : (((buildTrie T).GetAll.filter (fun d => d ≠ "")).toFinset) =
        ((T.filter (fun d => d ≠ "")).toFinset) := by
      apply Finset.ext
      intro x
      simp only [List.mem_toFinset, List.mem_filter, mem_GetAll_buildTrie,
        decide_eq_true_eq]
      constructor
      · rintro ⟨⟨h, hne⟩, -⟩; exact ⟨h, hne⟩
      · rintro ⟨h, hne⟩; exact ⟨⟨h, hne⟩, hne⟩
    rw [hfin]
    have : T.filter (fun d => d ≠ "") = T :=
      List.filter_eq_self.mpr fun a ha => by
        simp only [ne_eq, decide_eq_true_eq]
        rintro rfl
        exact hT ha
    rw [this, List.toFinset_card_of_nodup hTnd]

/-- Witness for C4: the spec's concrete scenario, blocklist
`{"a.com", "b.com"}` and empty allowlist. -/
theorem claim4_witness :
    ["a.com", "b.com"].Nodup ∧
    ∃ bl al df,
      Deserialize (Serialize (buildTrie ["a.com", "b.com"]) (buildTrie []) 0) =
        .ok (bl, al, df) ∧
      (∀ x, x ∈ bl.GetAll ↔ x ∈ ["a.com", "b.com"]) ∧
      (∀ x, x ∈ al.GetAll ↔ x ∈ ([] : List String)) ∧
      bl.size = 2 ∧ al.size = 0 :=
  ⟨by decide, claim4_roundtrip ["a.com", "b.com"] [] 0 (by decide) (by decide)
    (by decide) (by decide)⟩

/-- Claim C5: insertion is idempotent — `N ≥ 1` insertions of the same
domain produce a trie identical (root and size) to a single insertion, and
on a fresh empty trie the size after `N` insertions of a non-empty domain
is exactly 1. -/
theorem claim5_insert_idempotent (t : Trie) (d : String) (N : Nat) (hN : 1 ≤ N) :
    (fun s => Trie.Insert s d)^[N] t = t.Insert d ∧
    (d ≠ "" → ((fun s => Trie.Insert s d)^[N] Trie.New).size = 1) := by
  obtain ⟨k, rfl⟩ := Nat.exists_eq_add_of_le hN
  have hiter : ∀ u : Trie, (fun s => Trie.Insert s d)^[1 + k] u = u.Insert d := by
    intro u
    rw [Nat.add_comm, Function.iterate_succ_apply]
    exact iterate_insert d k u
  refine ⟨hiter t, fun hd => ?_⟩
  rw [hiter Trie.New]
  rw [Trie.Insert, if_neg hd]
  simp only [Trie.New]
  rw [if_neg (by simp [pathEnds_NewNode])]

/-- Witness for C5: three insertions of `"x.com"` into a fresh trie. -/
theorem claim5_witness :
    (1 : Nat) ≤ 3 ∧
    ((fun s => Trie.Insert s "x.com")^[3] Trie.New = Trie.New.Insert "x.com" ∧
      ("x.com" ≠ "" → ((fun s => Trie.Insert s "x.com")^[3] Trie.New).size = 1)) :=
  ⟨by decide, claim5_insert_idempotent Trie.New "x.com" 3 (by decide)⟩

/-- Claim C6: empty/invalid input never matches — whenever domain extraction
yields the empty string, `IsDisposable` returns `false` without consulting
either index (the conclusion holds for arbitrary tries), and in particular
the inputs `""`, `"@"` and `"user@"` (whose extraction results are all
empty) give `false`. -/
theorem claim6_empty_input_false (bl al : Trie) (input : String)
    (h : ExtractDomain input = "") :
    IsDisposable bl al input = false ∧
    IsDisposable bl al "" = false ∧
    IsDisposable bl al "@" = false ∧
    IsDisposable bl al "user@" = false := by
  refine ⟨?_, ?_, ?_, ?_⟩
  · rw [IsDisposable]
    simp [h]
  · rw [IsDisposable]
    simp [show ExtractDomain "" = "" by decide]
  · rw [IsDisposable]
    simp [show ExtractDomain "@" = "" by decide]
  · rw [IsDisposable]
    simp [show ExtractDomain "user@" = "" by decide]

/-- Witness for C6: the input `"@"` extracts to the empty string. -/
theorem claim6_witness :
    ExtractDomain "@" = "" ∧
    (IsDisposable Trie.New Trie.New "@" = false ∧
      IsDisposable Trie.New Trie.New "" = false ∧
      IsDisposable Trie.New Trie.New "@" = false ∧
      IsDisposable Trie.New Trie.New "user@" = false) :=
  ⟨by decide, claim6_empty_input_false Trie.New Trie.New "@" (by decide)⟩

/-- Claim C7: refresh is atomic on failure — for every checker state, when
the download step fails, `RefreshWithContext` surfaces that
`DownloadError` and returns the state exactly as it was; when the download
succeeds but decoding fails, it surfaces the `DeserializationError` with
source `"download"` and likewise leaves the state untouched. -/
theorem claim7_refresh_atomic_on_failure (c : CheckerState)
    (customBlocklist customAllowlist : List String)
    (downloaded : Except DownloadError (List Nat)) :
    (∀ e, downloaded = .error e →
      RefreshWithContext c customBlocklist customAllowlist downloaded =
        (c, some (LoadError.download e))) ∧
    (∀ bytes err, downloaded = .ok bytes → Deserialize bytes = .error err →
      RefreshWithContext c customBlocklist customAllowlist downloaded =
        (c, some (LoadError.deserialization "download" err))) := by
  constructor
  · rintro e rfl
    rfl
  · rintro bytes err rfl hdec
    rw [RefreshWithContext, downloadAndLoad]
    rw [hdec]

/-- Witness for C7: a failed download, and a download whose bytes are not
valid compressed data, both leave a concrete state unchanged. -/
theorem claim7_witness :
    RefreshWithContext ⟨Trie.New, Trie.New, false, 0, ""⟩ [] [] (.error ⟨"u", 404⟩) =
      (⟨Trie.New, Trie.New, false, 0, ""⟩, some (LoadError.download ⟨"u", 404⟩)) ∧
    RefreshWithContext ⟨Trie.New, Trie.New, false, 0, ""⟩ [] [] (.ok [1, 2, 3]) =
      (⟨Trie.New, Trie.New, false, 0, ""⟩,
        some (LoadError.deserialization "download" DecodeError.gzipReaderFailed)) :=
  ⟨(claim7_refresh_atomic_on_failure ⟨Trie.New, Trie.New, false, 0, ""⟩ [] []
      (.error ⟨"u", 404⟩)).1 ⟨"u", 404⟩ rfl,
   (claim7_refresh_atomic_on_failure ⟨Trie.New, Trie.New, false, 0, ""⟩ [] []
      (.ok [1, 2, 3])).2 [1, 2, 3] DecodeError.gzipReaderFailed rfl rfl⟩

/-- Claim C8: decode rejects malformed input — any byte sequence that does
not carry the compression container's header fails with the decompression
error, any well-compressed payload whose structured decoding fails yields
the structured-decode error, and in both cases no tries are produced
(`Except.error` carries no result); the function is total, so no fault
occurs. -/
theorem claim8_decode_rejects_malformed (b : List Nat) (h : ¬ gzipMagic <+: b) :
    Deserialize b = .error DecodeError.gzipReaderFailed ∧
    (∀ payload, gobDecodeDataFile payload = none →
      Deserialize (gzipCompress payload) = .error DecodeError.gobDecodeFailed) := by
  constructor
  · rw [Deserialize, gunzip_eq_none_of_not_magic h]
  · intro payload hdec
    rw [Deserialize, gunzip_gzipCompress]
    simp only [hdec]

/-- Witness for C8: the concrete non-gzip byte string `[1, 2, 3]`. -/
theorem claim8_witness :
    Deserialize [1, 2, 3] = .error DecodeError.gzipReaderFailed ∧
    (∀ payload, gobDecodeDataFile payload = none →
      Deserialize (gzipCompress payload) = .error DecodeError.gobDecodeFailed) :=
  claim8_decode_rejects_malformed [1, 2, 3] (by decide)

/-- Claim C9: `Trie.Insert` validates nothing beyond non-emptiness — for
every non-empty string, including ones with no dot, spaces, uppercase
letters or `'@'`, insertion stores the string verbatim (`Contains` then
finds it) and `size` grows by exactly one iff the string was not already
stored. -/
theorem claim9_insert_no_validation (t : Trie) (s : String) (hs : s ≠ "") :
    (t.Insert s).Contains s = true ∧
    (t.Insert s).size = (if t.Contains s then t.size else t.size + 1) := by
  constructor
  · rw [Trie.Contains, if_neg hs]
    have hroot : (t.Insert s).root = insertPath t.root (reverseString s).data := by
      rw [Trie.Insert, if_neg hs]
    rw [hroot]
    exact (pathEnds_insertPath _ _ _).mpr (.inl rfl)
  · rw [Trie.Insert, if_neg hs, Trie.Contains, if_neg hs]

/-- Witness for C9: a string with spaces, uppercase letters, an `'@'` and
no dot is stored as-is. -/
theorem claim9_witness :
    "NO dot@HERE" ≠ "" ∧
    ((Trie.New.Insert "NO dot@HERE").Contains "NO dot@HERE" = true ∧
      (Trie.New.Insert "NO dot@HERE").size =
        (if Trie.New.Contains "NO dot@HERE" then Trie.New.size else Trie.New.size + 1)) :=
  ⟨by decide, claim9_insert_no_validation Trie.New "NO dot@HERE" (by decide)⟩

/-- Claim C10: `Deserialize` never validates `DomainCount` — decoding the
encoding of any `DataFile` succeeds, whatever its `DomainCount` (including
values disagreeing with the list lengths), passes the whole metadata record
through unchanged, and the rebuilt tries' sizes are the numbers of distinct
non-empty strings of the respective lists, independent of `DomainCount`. -/
theorem claim10_domainCount_not_validated (df : DataFile) :
    Deserialize (gzipCompress (gobEncodeDataFile df)) =
      .ok (buildTrie df.Blocklist, buildTrie df.Allowlist, df) ∧
    (buildTrie df.Blocklist).size =
      ((df.Blocklist.filter (fun d => d ≠ "")).toFinset).card ∧
    (buildTrie df.Allowlist).size =
      ((df.Allowlist.filter (fun d => d ≠ "")).toFinset).card :=
  ⟨deserialize_encode df, size_buildTrie df.Blocklist, size_buildTrie df.Allowlist⟩

end GoDisposable
